import Mathlib

/-!
Shallow embedding of `batchio` (package `batchio`, file `batchio.go`):
a batching `Reader` over a pull-based byte source and a batching `Writer`
over a push-based byte sink.  Bytes are modelled as `Nat`, byte slices as
`List Nat`.  The real code races a background read goroutine against a
time-after-first-byte timer and context cancellation; the untimed model
resolves each `select` by an explicit schedule of events, so theorems
quantify over every interleaving the scheduler could produce.
-/

namespace Batchio

/-- The error values that flow through the package: `eof` is `io.EOF`,
`ioErr n` an arbitrary source/sink error, `noProgress` is
`io.ErrNoProgress`, `canceled` is `ctx.Err()`, and `misuse` is the
"called multiple times" fault from `Reader.Finish`. -/
inductive Err where
  | eof : Err
  | ioErr : Nat → Err
  | noProgress : Err
  | canceled : Err
  | misuse : Err
deriving DecidableEq, Repr

/-- Outcome of one `select` in `Reader.Next`: the background read wins,
the time-after-first-byte timer fires first, or the context is done. -/
inductive Ev where
  | readDone : Ev
  | timeout : Ev
  | cancel : Ev
deriving DecidableEq, Repr

/-- A deterministic model of the `io.ReadCloser` handed to `NewReader`:
`data` are the bytes it still has to deliver, `chunk i` is how many bytes
it offers on its i-th read call, `endErr` is the error it reports once
`data` is exhausted (`io.EOF` for a well-behaved source), and `closeErr`
is what `Close` returns.  `reads` and `closes` count the calls made
against the source. -/
structure Src where
  data : List Nat
  chunk : Nat → Nat
  endErr : Err
  closeErr : Option Err
  reads : Nat
  closes : Nat

/-- The source's `read(buf)`: with no data left it returns `(0, endErr)`;
otherwise it delivers `min (chunk, space, remaining)` bytes and no error
(so a script with `chunk i = 0` is a source that returns `(0, nil)`). -/
def Src.read (s : Src) (space : Nat) : List Nat × Option Err × Src :=
  match s.data with
  | [] => ([], some s.endErr, { s with reads := s.reads + 1 })
  | _ :: _ =>
      let n := min (min (s.chunk s.reads) space) s.data.length
      (s.data.take n, none, { s with data := s.data.drop n, reads := s.reads + 1 })

/-- The source's `Close()`. -/
def Src.close (s : Src) : Option Err × Src :=
  (s.closeErr, { s with closes := s.closes + 1 })

/-- The body of the goroutine in `Reader.Next` (lines 81-92): retry the
source read while it returns `(0, nil)`, at most `k` times; once the
tries are exhausted report the synthetic `io.ErrNoProgress`.  The result
is the pair the goroutine publishes: the bytes sent on `r.read` and the
value it assigned to `r.err`. -/
def attemptAux : Nat → Src → Nat → List Nat × Option Err × Src
  | 0, s, _ => ([], some Err.noProgress, s)
  | k + 1, s, space =>
      let r := s.read space
      if 0 < r.1.length ∨ r.2.1 ≠ none then r else attemptAux k r.2.2 space

/-- One background read attempt: `for i := 0; i < 5; i++ { ... }`. -/
def attempt (s : Src) (space : Nat) : List Nat × Option Err × Src :=
  attemptAux 5 s space

/-- A single source read never delivers more bytes than the space offered. -/
theorem Src.read_len (s : Src) (space : Nat) : (s.read space).1.length ≤ space := by
  rw [Src.read]
  cases hd : s.data with
  | nil => simp
  | cons b bs => simp only [List.length_take]; omega

/-- A background attempt never yields zero bytes without also recording an
error: either the source made progress, or the source erred, or the 5
retries were exhausted and `io.ErrNoProgress` is recorded. -/
theorem attemptAux_progress (k : Nat) (s : Src) (space : Nat)
    (h : (attemptAux k s space).1 = []) : (attemptAux k s space).2.1 ≠ none := by
  induction k generalizing s with
  | zero => simp [attemptAux]
  | succ k ih =>
      rw [attemptAux] at h ⊢
      by_cases hc : 0 < (s.read space).1.length ∨ (s.read space).2.1 ≠ none
      · simp only [hc, if_true] at h ⊢
        rcases hc with hc | hc
        · simp [h] at hc
        · exact hc
      · simp only [hc, if_false] at h ⊢
        exact ih (s.read space).2.2 h

/-- A background attempt never delivers more bytes than the space offered. -/
theorem attemptAux_len (k : Nat) (s : Src) (space : Nat) :
    (attemptAux k s space).1.length ≤ space := by
  induction k generalizing s with
  | zero => simp [attemptAux]
  | succ k ih =>
      rw [attemptAux]
      by_cases hc : 0 < (s.read space).1.length ∨ (s.read space).2.1 ≠ none
      · simpa [hc] using Src.read_len s space
      · simpa [hc] using ih (s.read space).2.2

/-- State of `batchio.Reader`: `rsrc` is the underlying source `r.r`
(`rnil` records whether `Finish` has set `r.r = nil`), `size` is
`len(r.buf)`, `tafb` the time-after-first-byte duration, `pending`
models `r.pendingRead` together with the result sitting in the `r.read`
channel (the bytes the still-running goroutine wrote at `buf[nread:]`),
and `err` is `r.err`. -/
structure Reader where
  rsrc : Src
  rnil : Bool
  size : Nat
  tafb : Int
  pending : Option (List Nat)
  err : Option Err

/-- First event of the schedule; an empty schedule lets the background
read win every race. -/
def schedHead (sched : List Ev) : Ev := sched.headD Ev.readDone

def schedTail (sched : List Ev) : List Ev := sched.tail

/-- Resolve one `select` in the read loop (lines 93-106).  `noTimer` is
true while no byte has accumulated: the TAFB timer is only started once
`r.nread > 0`, so before that the timeout branch cannot fire and the
race is between the read and cancellation. -/
def selEv (noTimer : Bool) (sched : List Ev) : Ev :=
  match schedHead sched with
  | Ev.timeout => if noTimer then Ev.readDone else Ev.timeout
  | ev => ev

/-- The `for r.nread < len(r.buf) && r.err == nil` loop of `Reader.Next`
(lines 74-111), entered with `r.err == nil`; `acc` is `r.buf[:r.nread]`.
Each iteration launches one background attempt and races it against the
timer and the context.  The loop adds at least one byte per iteration (a
background attempt never yields zero bytes without an error), so the
`size + 1` rounds of fuel `Reader.next` supplies are never exhausted;
the fuel-0 case mirrors the buffer-full exit of lines 108-111. -/
def nextLoop : Nat → Reader → List Nat → List Ev → Option (List Nat) × Option Err × Reader
  | 0, s, acc, _ => (some acc, none, s)
  | fuel + 1, s, acc, sched =>
      if acc.length < s.size then
        if s.rnil then
          -- the goroutine would dereference a nil source (caller misuse
          -- after Finish); modelled as a fault
          (none, some Err.misuse, s)
        else
          match selEv acc.isEmpty sched with
          | Ev.readDone =>
              -- `case n := <-r.read`: the attempt's bytes and error land
              match (attempt s.rsrc (s.size - acc.length)).2.1 with
              | some e =>
                  if (acc ++ (attempt s.rsrc (s.size - acc.length)).1).isEmpty then
                    (none, some e,
                     { s with rsrc := (attempt s.rsrc (s.size - acc.length)).2.2, err := some e })
                  else
                    (some (acc ++ (attempt s.rsrc (s.size - acc.length)).1), none,
                     { s with rsrc := (attempt s.rsrc (s.size - acc.length)).2.2, err := some e })
              | none =>
                  nextLoop fuel { s with rsrc := (attempt s.rsrc (s.size - acc.length)).2.2 }
                    (acc ++ (attempt s.rsrc (s.size - acc.length)).1) (schedTail sched)
          | Ev.timeout =>
              -- `case <-timeout`: mark the read pending, return the batch
              (some acc, none,
               { s with rsrc := (attempt s.rsrc (s.size - acc.length)).2.2,
                        pending := some (attempt s.rsrc (s.size - acc.length)).1,
                        err := (attempt s.rsrc (s.size - acc.length)).2.1 })
          | Ev.cancel =>
              -- `case <-ctx.Done()`: mark pending; empty batch becomes the
              -- context error
              if acc.isEmpty then
                (none, some Err.canceled,
                 { s with rsrc := (attempt s.rsrc (s.size - acc.length)).2.2,
                          pending := some (attempt s.rsrc (s.size - acc.length)).1,
                          err := (attempt s.rsrc (s.size - acc.length)).2.1 })
              else
                (some acc, none,
                 { s with rsrc := (attempt s.rsrc (s.size - acc.length)).2.2,
                          pending := some (attempt s.rsrc (s.size - acc.length)).1,
                          err := (attempt s.rsrc (s.size - acc.length)).2.1 })
      else (some acc, none, s)

/-- Lines 74-111 once the pending read (if any) has been folded into the
buffer: if `r.err` is already set the loop is skipped and lines 108-111
return the buffered bytes or the sticky error. -/
def afterPending (s : Reader) (acc : List Nat) (sched : List Ev) :
    Option (List Nat) × Option Err × Reader :=
  match s.err with
  | some e => if acc.isEmpty then (none, some e, s) else (some acc, none, s)
  | none => nextLoop (s.size + 1) s acc sched

/-- Model of `Reader.Next` (lines 60-112).  The context is modelled by `cancel`
events in the schedule; `ctx.Err()` is `Err.canceled`. -/
def Reader.next (s : Reader) (sched : List Ev) : Option (List Nat) × Option Err × Reader :=
  match s.pending with
  | some cs =>
      -- wait on the leftover read from the last call (lines 62-69)
      if schedHead sched = Ev.cancel then (none, some Err.canceled, s)
      else afterPending { s with pending := none } cs (schedTail sched)
  | none => afterPending s [] sched

/-- Model of `Reader.Finish` (lines 116-128): close the source; if a read was
pending, drain it, return its bytes, and only then clear `r.r`. -/
def Reader.finish (s : Reader) : Option (List Nat) × Option Err × Reader :=
  if s.rnil then (none, some Err.misuse, s)
  else
    let c := s.rsrc.close
    match s.pending with
    | none => (none, c.1, { s with rsrc := c.2 })
    | some cs => (some cs, c.1, { s with rsrc := c.2, pending := none, rnil := true })

/-- Model of `NewReader` (lines 35-51): a `none` result models the construction
panic; sizes and durations are Go `int`/`time.Duration` values. -/
def NewReader (r : Option Src) (size : Int) (timeAfterFirstByte : Int) : Option Reader :=
  match r with
  | none => none
  | some src =>
      if size ≤ 0 then none
      else if timeAfterFirstByte < 0 then none
      else some { rsrc := src, rnil := false, size := size.toNat,
                  tafb := timeAfterFirstByte, pending := none, err := none }

/-- Drive a `Reader` through one `Next` call per schedule in the list,
collecting every batch that was returned. -/
def runNexts (s : Reader) : List (List Ev) → List (List Nat) × Reader
  | [] => ([], s)
  | sched :: rest =>
      let r := s.next sched
      let rr := runNexts r.2.2 rest
      (r.1.toList ++ rr.1, rr.2)

/-- The bytes carried by a not-yet-consumed pending read. -/
def pendD (s : Reader) : List Nat := s.pending.getD []

/-- The bytes of a returned batch (`nil` contributes nothing). -/
def batchD (b : Option (List Nat)) : List Nat := b.getD []

/-- On a source that offers at least one byte per read, a background
attempt either consumes a prefix of the data with no error, or reports
the source's terminal error on empty data; in both cases the bytes it
returns plus the bytes still in the source are exactly the bytes the
source held, and the source's script fields are untouched. -/
theorem attempt_conserve (src : Src) (sp : Nat) (hch : ∀ i, 1 ≤ src.chunk i) (hsp : 1 ≤ sp) :
    (attempt src sp).1 ++ (attempt src sp).2.2.data = src.data ∧
    (attempt src sp).2.2.chunk = src.chunk ∧
    (attempt src sp).2.2.endErr = src.endErr ∧
    (attempt src sp).2.2.closeErr = src.closeErr ∧
    ((attempt src sp).2.1 ≠ none → (attempt src sp).1 = [] ∧ (attempt src sp).2.2.data = []) := by
  cases hd : src.data with
  | nil =>
      simp only [attempt, attemptAux, Src.read, hd]
      simp
  | cons b bs =>
      have hn : 1 ≤ min (min (src.chunk src.reads) sp) (b :: bs).length := by
        have := hch src.reads
        simp only [List.length_cons]
        omega
      simp only [attempt, attemptAux, Src.read, hd]
      have hg : 0 < ((b :: bs).take (min (min (src.chunk src.reads) sp) (b :: bs).length)).length ∨
          (none : Option Err) ≠ none := by
        left
        simp only [List.length_take]
        omega
      simp only [hg, if_true]
      exact ⟨List.take_append_drop _ _, by simp, by simp, by simp, by simp⟩

/-- Invariant carried across `Next` calls for the round-trip argument:
the source has not been closed, every read makes progress, and once the
sticky error is set both the pending slot and the source are drained. -/
def GoodR (s : Reader) : Prop :=
  s.rnil = false ∧ (∀ i, 1 ≤ s.rsrc.chunk i) ∧
  (s.err ≠ none → pendD s = [] ∧ s.rsrc.data = [])

/-- One run of the read loop neither loses nor duplicates bytes: the
batch it returns, plus the bytes parked in the pending slot, plus the
bytes still in the source, are exactly the bytes accumulated so far plus
the bytes the source held — under any schedule of timer and
cancellation events. -/
theorem nextLoop_conserve (fuel : Nat) :
    ∀ (s : Reader) (acc : List Nat) (sched : List Ev),
      s.rnil = false → (∀ i, 1 ≤ s.rsrc.chunk i) → s.pending = none → s.err = none →
      batchD (nextLoop fuel s acc sched).1 ++ pendD (nextLoop fuel s acc sched).2.2 ++
          (nextLoop fuel s acc sched).2.2.rsrc.data = acc ++ s.rsrc.data ∧
      GoodR (nextLoop fuel s acc sched).2.2 := by
  induction fuel with
  | zero =>
      intro s acc sched hrn hch hp he
      simp [nextLoop, batchD, pendD, hp, GoodR, hrn, hch, he]
  | succ fuel ih =>
      intro s acc sched hrn hch hp he
      rw [nextLoop]
      by_cases hlt : acc.length < s.size
      · rw [if_pos hlt, if_neg (show ¬s.rnil = true by simp [hrn])]
        have hC := attempt_conserve s.rsrc (s.size - acc.length) hch (by omega)
        set a := attempt s.rsrc (s.size - acc.length) with ha
        obtain ⟨hC1, hC2, _, _, hC5⟩ := hC
        cases hEv : selEv acc.isEmpty sched with
        | readDone =>
            dsimp only
            cases hE : a.2.1 with
            | some e =>
                dsimp only
                obtain ⟨hcs, hdata⟩ := hC5 (by simp [hE])
                by_cases hemp : (acc ++ a.1).isEmpty
                · have hacc : acc = [] := by rw [hcs] at hemp; simpa using hemp
                  have hsd : s.rsrc.data = [] := by rw [hcs, hdata] at hC1; simpa using hC1.symm
                  rw [if_pos hemp]
                  exact ⟨by simp [batchD, pendD, hp, hdata, hacc, hsd],
                         hrn, (fun i => hC2 ▸ hch i), fun _ => ⟨by simp [pendD, hp], hdata⟩⟩
                · have hsd : s.rsrc.data = a.1 := by rw [hdata] at hC1; simpa using hC1.symm
                  rw [if_neg hemp]
                  exact ⟨by simp [batchD, pendD, hp, hdata, hsd],
                         hrn, (fun i => hC2 ▸ hch i), fun _ => ⟨by simp [pendD, hp], hdata⟩⟩
            | none =>
                dsimp only
                have hrec := ih { s with rsrc := a.2.2 } (acc ++ a.1) (schedTail sched)
                  hrn (fun i => hC2 ▸ hch i) hp he
                refine ⟨?_, hrec.2⟩
                rw [hrec.1]
                simp only [List.append_assoc]
                rw [hC1]
        | timeout =>
            dsimp only
            refine ⟨?_, hrn, (fun i => hC2 ▸ hch i), fun hne => ?_⟩
            · simp only [batchD, pendD, Option.getD_some, List.append_assoc]
              rw [hC1]
            · obtain ⟨hcs, hdata⟩ := hC5 hne
              exact ⟨by simp [pendD, hcs], hdata⟩
        | cancel =>
            dsimp only
            by_cases hemp : acc.isEmpty
            · have hacc : acc = [] := by simpa using hemp
              rw [if_pos hemp]
              refine ⟨?_, hrn, (fun i => hC2 ▸ hch i), fun hne => ?_⟩
              · simp only [batchD, pendD, Option.getD_none, Option.getD_some, hacc,
                  List.nil_append]
                exact hC1
              · obtain ⟨hcs, hdata⟩ := hC5 hne
                exact ⟨by simp [pendD, hcs], hdata⟩
            · rw [if_neg hemp]
              refine ⟨?_, hrn, (fun i => hC2 ▸ hch i), fun hne => ?_⟩
              · simp only [batchD, pendD, Option.getD_some, List.append_assoc]
                rw [hC1]
              · obtain ⟨hcs, hdata⟩ := hC5 hne
                exact ⟨by simp [pendD, hcs], hdata⟩
      · rw [if_neg hlt]
        simp [batchD, pendD, hp, GoodR, hrn, hch, he]

/-- One `Next` call neither loses nor duplicates bytes, and preserves the
round-trip invariant. -/
theorem next_conserve (s : Reader) (sched : List Ev) (hG : GoodR s) :
    batchD (s.next sched).1 ++ pendD (s.next sched).2.2 ++ (s.next sched).2.2.rsrc.data =
      pendD s ++ s.rsrc.data ∧ GoodR (s.next sched).2.2 := by
  obtain ⟨hrn, hch, herr⟩ := hG
  rw [Reader.next]
  cases hp : s.pending with
  | none =>
      dsimp only [afterPending]
      cases he : s.err with
      | some e =>
          dsimp only
          exact ⟨by simp [batchD, pendD, hp], hrn, hch, herr⟩
      | none =>
          have := nextLoop_conserve (s.size + 1) s [] sched hrn hch hp he
          simpa [pendD, hp] using this
  | some cs =>
      dsimp only
      by_cases hc : schedHead sched = Ev.cancel
      · rw [if_pos hc]
        exact ⟨rfl, hrn, hch, herr⟩
      · rw [if_neg hc]
        dsimp only [afterPending]
        cases he : s.err with
        | some e =>
            obtain ⟨hpcs, hdata⟩ := herr (by simp [he])
            have hcs : cs = [] := by simpa [pendD, hp] using hpcs
            dsimp only
            rw [if_pos (by simp [hcs])]
            refine ⟨by simp [batchD, pendD, hcs, hp], hrn, hch, fun _ => ⟨by simp [pendD], hdata⟩⟩
        | none =>
            have := nextLoop_conserve (s.size + 1) { s with pending := none } cs
              (schedTail sched) hrn hch rfl he
            simpa [pendD, hp, he] using this

/-- Driving the Reader through any sequence of `Next` calls conserves
bytes: batches emitted so far, plus the pending slot, plus what the
source still holds, equal the pending slot plus the source contents at
the start. -/
theorem runNexts_conserve (scheds : List (List Ev)) (s : Reader) (hG : GoodR s) :
    (runNexts s scheds).1.flatten ++ pendD (runNexts s scheds).2 ++
        (runNexts s scheds).2.rsrc.data = pendD s ++ s.rsrc.data ∧
      GoodR (runNexts s scheds).2 := by
  induction scheds generalizing s with
  | nil => exact ⟨rfl, hG⟩
  | cons sched rest ih =>
      obtain ⟨h1, h2⟩ := next_conserve s sched hG
      obtain ⟨ih1, ih2⟩ := ih (s.next sched).2.2 h2
      refine ⟨?_, by simpa [runNexts] using ih2⟩
      rw [runNexts]
      dsimp only
      simp only [List.flatten_append, List.append_assoc] at ih1 h1 ⊢
      rw [ih1, ← h1]
      congr 1
      cases (s.next sched).1 <;> simp [batchD]

/-- The source handed to `NewReader` in the round-trip theorems. -/
def srcOf (d : List Nat) (chunk : Nat → Nat) (endErr : Err) (closeErr : Option Err) : Src :=
  { data := d, chunk := chunk, endErr := endErr, closeErr := closeErr, reads := 0, closes := 0 }

/-- A successful `NewReader` stores exactly the arguments it was given. -/
theorem NewReader_some (src : Src) (sz t : Int) (r : Reader)
    (h : NewReader (some src) sz t = some r) :
    r = { rsrc := src, rnil := false, size := sz.toNat, tafb := t,
          pending := none, err := none } := by
  rw [NewReader] at h
  by_cases h1 : sz ≤ 0
  · rw [if_pos h1] at h; cases h
  · rw [if_neg h1] at h
    by_cases h2 : t < 0
    · rw [if_pos h2] at h; cases h
    · rw [if_neg h2] at h
      exact (Option.some.injEq .. ▸ h).symm

/-- C1: for any input byte sequence `d`, delivered by the source in any
chunking (`chunk` gives each read's offer; every read makes progress),
and any interleaving of read completions, timer firings and context
cancellations across any number of `Next` calls, once the run has
observed the source's terminal error the concatenation of all batches
returned by `Next`, followed by the final batch returned by `Finish`,
is exactly `d`: no byte is lost, duplicated or reordered, including
bytes carried over from a pending in-flight read. -/
theorem c1_round_trip (d : List Nat) (chunk : Nat → Nat) (endErr : Err)
    (closeErr : Option Err) (sz t : Int) (r : Reader) (scheds : List (List Ev))
    (hch : ∀ i, 1 ≤ chunk i)
    (hnew : NewReader (some (srcOf d chunk endErr closeErr)) sz t = some r)
    (hterm : (runNexts r scheds).2.err ≠ none) :
    ((runNexts r scheds).1 ++ ((runNexts r scheds).2.finish).1.toList).flatten = d := by
  have hr := NewReader_some _ _ _ _ hnew
  have hG0 : GoodR r := by
    rw [hr]
    exact ⟨rfl, hch, by simp⟩
  obtain ⟨hcons, hGf⟩ := runNexts_conserve scheds r hG0
  have hpr : pendD r = [] := by rw [hr]; rfl
  have hdr : r.rsrc.data = d := by rw [hr]; simp [srcOf]
  rw [hpr, hdr, List.nil_append] at hcons
  obtain ⟨hpend, hdata⟩ := hGf.2.2 hterm
  rw [hpend, hdata] at hcons
  simp only [List.append_nil] at hcons
  rw [List.flatten_append]
  rw [Reader.finish, if_neg (by simp [hGf.1])]
  cases hp : (runNexts r scheds).2.pending with
  | none => simpa using hcons
  | some cs =>
      have hcs : cs = [] := by simpa [pendD, hp] using hpend
      dsimp only
      simpa [hcs] using hcons

/-- The concrete Reader used by the C1 witness: size 2 over a source that
holds `[1,2,3]` and offers 5 bytes per read. -/
def c1wReader : Reader := { rsrc := srcOf [1, 2, 3] (fun _ => 5) Err.eof none, rnil := false, size := 2, tafb := 0, pending := none, err := none }

/-- Witness for C1: three `Next` calls under the default schedule observe
`[1,2]`, `[3]`, then `io.EOF`; the concatenation of all batches plus the
`Finish` batch is the original sequence. -/
theorem c1_round_trip_witness :
    (∀ i, 1 ≤ (fun _ : Nat => 5) i) ∧
    NewReader (some (srcOf [1, 2, 3] (fun _ => 5) Err.eof none)) 2 0 = some c1wReader ∧
    (runNexts c1wReader [[], [], []]).2.err ≠ none ∧
    ((runNexts c1wReader [[], [], []]).1 ++
        ((runNexts c1wReader [[], [], []]).2.finish).1.toList).flatten = [1, 2, 3] := by
  refine ⟨by intro i; simp, rfl, by decide, ?_⟩
  exact c1_round_trip [1, 2, 3] (fun _ => 5) Err.eof none 2 0 c1wReader [[], [], []]
    (by intro i; simp) rfl (by decide)

/-- A source that always returns `(0, nil)`: it still holds data `d` but
offers zero bytes on every read. -/
def zeroSrc (d : List Nat) : Src := ⟨d, fun _ => 0, Err.eof, none, 0, 0⟩

/-- A fresh Reader of the given size over the always-`(0, nil)` source. -/
def zeroReader (d : List Nat) (sz : Nat) : Reader := ⟨zeroSrc d, false, sz, 0, none, none⟩

/-- The Reader after `Next` has hit the no-progress guard: five reads
made, `io.ErrNoProgress` sticky. -/
def zeroReaderStuck (d : List Nat) (sz : Nat) : Reader :=
  ⟨{ zeroSrc d with reads := 5 }, false, sz, 0, none, some Err.noProgress⟩

/-- On a source with data that offers zero bytes per read, a background
attempt burns all `k` retries, reads the source exactly `k` times, and
reports `io.ErrNoProgress`. -/
theorem attemptAux_zero (k m : Nat) (d : List Nat) (hd : d ≠ []) (ee : Err)
    (ce : Option Err) (cl sp : Nat) :
    attemptAux k (⟨d, fun _ => 0, ee, ce, m, cl⟩ : Src) sp =
      ([], some Err.noProgress, (⟨d, fun _ => 0, ee, ce, m + k, cl⟩ : Src)) := by
  induction k generalizing m with
  | zero => simp [attemptAux]
  | succ k ih =>
      rw [attemptAux]
      cases d with
      | nil => exact absurd rfl hd
      | cons b bs =>
          have hread : Src.read (⟨b :: bs, fun _ => 0, ee, ce, m, cl⟩ : Src) sp =
              ([], none, (⟨b :: bs, fun _ => 0, ee, ce, m + 1, cl⟩ : Src)) := by
            simp [Src.read]
          rw [hread]
          simp only [List.length_nil, lt_irrefl, ne_eq, not_true_eq_false, or_self, if_false]
          rw [ih (m + 1)]
          have harith : m + 1 + k = m + (k + 1) := by omega
          rw [harith]

/-- C3: with a source whose read always returns `(0, nil)`, a `Next`
call on a fresh Reader (no bytes accumulated, context never cancels)
invokes the source's read exactly 5 times, returns a nil batch together
with the synthetic `io.ErrNoProgress`, and that error is sticky: every
later `Next` returns it again without touching the source. -/
theorem c3_no_progress (d : List Nat) (hd : d ≠ []) (sz : Nat) (hsz : 1 ≤ sz)
    (sched : List Ev) (hc : schedHead sched ≠ Ev.cancel) :
    (zeroReader d sz).next sched = (none, some Err.noProgress, zeroReaderStuck d sz) ∧
    (zeroReader d sz).rsrc.reads = 0 ∧
    (zeroReaderStuck d sz).rsrc.reads = 5 ∧
    (∀ sched', (zeroReaderStuck d sz).next sched' =
      (none, some Err.noProgress, zeroReaderStuck d sz)) := by
  refine ⟨?_, rfl, rfl, fun sched' => rfl⟩
  have hA : attempt (zeroSrc d) sz = ([], some Err.noProgress, { zeroSrc d with reads := 5 }) := by
    have := attemptAux_zero 5 0 d hd Err.eof none 0 sz
    simpa [attempt, zeroSrc] using this
  rw [Reader.next]
  dsimp only [zeroReader, afterPending]
  rw [nextLoop]
  rw [if_pos (by simpa using hsz), if_neg (by simp)]
  simp only [Nat.sub_zero, List.length_nil]
  rw [hA]  -- hmm: the goal mentions attempt (zeroSrc d) (sz - 0)
  cases hh : schedHead sched with
  | readDone =>
      have hse : selEv (List.isEmpty ([] : List Nat)) sched = Ev.readDone := by simp [selEv, hh]
      rw [hse]
      simp [zeroReaderStuck, zeroSrc]
  | timeout =>
      have hse : selEv (List.isEmpty ([] : List Nat)) sched = Ev.readDone := by simp [selEv, hh]
      rw [hse]
      simp [zeroReaderStuck, zeroSrc]
  | cancel => exact absurd hh hc

/-- The Reader state produced by the `<-ctx.Done()` branch of the read
loop (lines 100-105): the racing attempt's bytes are parked in the
pending slot, its error assignment lands in `r.err`, and the source has
advanced by that attempt. -/
def cancelSt (s : Reader) (acc : List Nat) : Reader :=
  { s with rsrc := (attempt s.rsrc (s.size - acc.length)).2.2,
           pending := some (attempt s.rsrc (s.size - acc.length)).1,
           err := (attempt s.rsrc (s.size - acc.length)).2.1 }

/-- C6: when the context is cancelled while a background read races, the
read is marked pending (its result parked for the next `Next` or
`Finish`, never dropped) and the bytes accumulated so far are returned;
with zero bytes accumulated the context's cancellation error is returned
with a nil batch instead of an empty batch.  Cancellation while waiting
on a leftover pending read likewise returns the context error and keeps
the pending read parked. -/
theorem c6_cancel (s : Reader) (acc : List Nat) (sched : List Ev) (fuel : Nat)
    (hacc : acc.length < s.size) (hrn : s.rnil = false)
    (hc : schedHead sched = Ev.cancel) :
    (acc = [] → nextLoop (fuel + 1) s acc sched = (none, some Err.canceled, cancelSt s acc)) ∧
    (acc ≠ [] → nextLoop (fuel + 1) s acc sched = (some acc, none, cancelSt s acc)) ∧
    (cancelSt s acc).pending = some (attempt s.rsrc (s.size - acc.length)).1 ∧
    (∀ cs, s.pending = some cs → s.next sched = (none, some Err.canceled, s)) := by
  have hse : selEv acc.isEmpty sched = Ev.cancel := by simp [selEv, hc]
  refine ⟨?_, ?_, rfl, ?_⟩
  · intro h
    subst h
    rw [nextLoop, if_pos hacc, if_neg (by simp [hrn]), hse]
    rfl
  · intro h
    rw [nextLoop, if_pos hacc, if_neg (by simp [hrn]), hse]
    dsimp only
    rw [if_neg (by simpa using h)]
    rfl
  · intro cs hp
    rw [Reader.next, hp]
    dsimp only
    rw [if_pos hc]

/-- The concrete Reader for the C6 witness: size 2, pending read parked. -/
def c6wReader : Reader := ⟨srcOf [1, 2, 3] (fun _ => 5) Err.eof none, false, 2, 0, some [7], none⟩

/-- Witness for C6 at a concrete Reader, empty accumulation and the
schedule that cancels immediately. -/
theorem c6_cancel_witness :
    (([] : List Nat).length < c6wReader.size ∧ c6wReader.rnil = false ∧
      schedHead [Ev.cancel] = Ev.cancel) ∧
    (([] : List Nat) = [] →
      nextLoop 1 c6wReader [] [Ev.cancel] = (none, some Err.canceled, cancelSt c6wReader [])) ∧
    (([] : List Nat) ≠ [] →
      nextLoop 1 c6wReader [] [Ev.cancel] = (some [], none, cancelSt c6wReader [])) ∧
    (cancelSt c6wReader []).pending =
      some (attempt c6wReader.rsrc (c6wReader.size - ([] : List Nat).length)).1 ∧
    (∀ cs, c6wReader.pending = some cs →
      c6wReader.next [Ev.cancel] = (none, some Err.canceled, c6wReader)) :=
  ⟨⟨by decide, rfl, rfl⟩, c6_cancel c6wReader [] [Ev.cancel] 0 (by decide) rfl rfl⟩

/-- C7: once the sticky error field holds a source error `e`, `Next`
never reads the source again; if no read is pending every call returns
`(nil, e)` and leaves the state unchanged, and if one pending read is
left over its bytes are surfaced first (with no error) and every call
after that returns `(nil, e)`. -/
theorem c7_sticky (s : Reader) (e : Err) (he : s.err = some e) :
    (∀ sched, ((s.next sched).2.2).rsrc.reads = s.rsrc.reads ∧
      ((s.next sched).2.2).err = some e) ∧
    (s.pending = none → ∀ sched, s.next sched = (none, some e, s)) ∧
    (∀ cs sched, s.pending = some cs → schedHead sched ≠ Ev.cancel →
      (cs = [] → s.next sched = (none, some e, { s with pending := none })) ∧
      (cs ≠ [] → s.next sched = (some cs, none, { s with pending := none })) ∧
      (∀ sched', ({ s with pending := none }).next sched' =
        (none, some e, { s with pending := none }))) := by
  have hnone : ∀ sched, s.pending = none → s.next sched = (none, some e, s) := by
    intro sched hp
    rw [Reader.next, hp]
    dsimp only [afterPending]
    rw [he]
    rfl
  have hcons : ∀ cs sched, s.pending = some cs → schedHead sched ≠ Ev.cancel →
      s.next sched = (if cs.isEmpty then (none, some e, { s with pending := none })
                      else (some cs, none, { s with pending := none })) := by
    intro cs sched hp hc
    rw [Reader.next, hp]
    dsimp only
    rw [if_neg hc]
    dsimp only [afterPending]
    rw [he]
  have hupd : ∀ sched', ({ s with pending := none } : Reader).next sched' =
      (none, some e, { s with pending := none }) := by
    intro sched'
    rw [Reader.next]
    dsimp only [afterPending]
    rw [he]
    rfl
  refine ⟨?_, fun hp sched => hnone sched hp, fun cs sched hp hc => ⟨?_, ?_, hupd⟩⟩
  · intro sched
    cases hp : s.pending with
    | none => rw [hnone sched hp]; exact ⟨rfl, he⟩
    | some cs =>
        by_cases hc : schedHead sched = Ev.cancel
        · rw [Reader.next, hp]
          dsimp only
          rw [if_pos hc]
          exact ⟨rfl, he⟩
        · rw [hcons cs sched hp hc]
          by_cases hcs : cs.isEmpty
          · rw [if_pos hcs]; exact ⟨rfl, he⟩
          · rw [if_neg hcs]; exact ⟨rfl, he⟩
  · intro hcs
    rw [hcons cs sched hp hc, if_pos (by simp [hcs])]
  · intro hcs
    rw [hcons cs sched hp hc, if_neg (by simpa using hcs)]

/-- The concrete Reader for the C7 witness: sticky error recorded, one
pending read of `[5]` left over. -/
def c7wReader : Reader := ⟨srcOf [1, 2] (fun _ => 1) Err.eof none, false, 2, 0, some [5], some (Err.ioErr 3)⟩

/-- Witness for C7: the buffered byte is surfaced first, no source read
is issued, and afterwards every `Next` returns the recorded error. -/
theorem c7_sticky_witness :
    c7wReader.err = some (Err.ioErr 3) ∧
    (c7wReader.next []).2.2.rsrc.reads = c7wReader.rsrc.reads ∧
    (c7wReader.next []).2.2.err = some (Err.ioErr 3) ∧
    c7wReader.next [] = (some [5], none, { c7wReader with pending := none }) ∧
    ({ c7wReader with pending := none }).next [] =
      (none, some (Err.ioErr 3), { c7wReader with pending := none }) :=
  ⟨rfl, ((c7_sticky c7wReader (Err.ioErr 3) rfl).1 []).1,
   ((c7_sticky c7wReader (Err.ioErr 3) rfl).1 []).2,
   ((c7_sticky c7wReader (Err.ioErr 3) rfl).2.2 [5] [] rfl (by decide)).2.1 (by decide),
   ((c7_sticky c7wReader (Err.ioErr 3) rfl).2.2 [5] [] rfl (by decide)).2.2 []⟩

/-- A fresh Reader with no pending read over a clean, empty source. -/
def c5Reader : Reader := ⟨srcOf [] (fun _ => 1) Err.eof none, false, 1, 0, none, none⟩

/-- The same Reader but with a pending read outstanding. -/
def c5pReader : Reader := ⟨srcOf [] (fun _ => 1) Err.eof none, false, 1, 0, some [], none⟩

/-- C5 fails on the code: `Finish` clears `r.r` only on the pending-read
path, so when no read was pending a second `Finish` closes the source
again (close count 2) and returns the close error (`nil` here) instead
of the misuse fault.  The fault is produced only when the first call had
consumed a pending read. -/
theorem c5_double_finish_bug :
    ((c5Reader.finish).2.2.finish).2.1 ≠ some Err.misuse ∧
    ((c5Reader.finish).2.2.finish).2.1 = none ∧
    ((c5Reader.finish).2.2.finish).2.2.rsrc.closes = 2 ∧
    ((c5pReader.finish).2.2.finish).2.1 = some Err.misuse ∧
    ((c5pReader.finish).2.2.finish).2.2.rsrc.closes = 1 := by
  decide

/-- Witness for C3 at the one-byte zero-offer source, size 1, default
schedule. -/
theorem c3_no_progress_witness :
    ([1] : List Nat) ≠ [] ∧ (1 : Nat) ≤ 1 ∧ schedHead ([] : List Ev) ≠ Ev.cancel ∧
    (zeroReader [1] 1).next [] = (none, some Err.noProgress, zeroReaderStuck [1] 1) ∧
    (zeroReaderStuck [1] 1).rsrc.reads = 5 :=
  ⟨by decide, le_refl 1, by decide,
   (c3_no_progress [1] (by decide) 1 (le_refl 1) [] (by decide)).1,
   (c3_no_progress [1] (by decide) 1 (le_refl 1) [] (by decide)).2.2.1⟩

/-- Every batch the read loop can return, and every chunk it can park in
the pending slot, is bounded by the configured size. -/
theorem nextLoop_bound (fuel : Nat) :
    ∀ (s : Reader) (acc : List Nat) (sched : List Ev),
      acc.length ≤ s.size → (∀ cs, s.pending = some cs → cs.length ≤ s.size) →
      (∀ bs, (nextLoop fuel s acc sched).1 = some bs → bs.length ≤ s.size) ∧
      (∀ cs, (nextLoop fuel s acc sched).2.2.pending = some cs → cs.length ≤ s.size) ∧
      (nextLoop fuel s acc sched).2.2.size = s.size := by
  induction fuel with
  | zero =>
      intro s acc sched hacc hp
      rw [nextLoop]
      exact ⟨fun bs hbs => (by cases hbs; exact hacc), hp, rfl⟩
  | succ fuel ih =>
      intro s acc sched hacc hp
      rw [nextLoop]
      by_cases hlt : acc.length < s.size
      · rw [if_pos hlt]
        by_cases hrn : s.rnil = true
        · rw [if_pos hrn]
          exact ⟨fun bs hbs => (by cases hbs), hp, rfl⟩
        · rw [if_neg hrn]
          have hlen : (attempt s.rsrc (s.size - acc.length)).1.length ≤ s.size - acc.length :=
            attemptAux_len 5 s.rsrc (s.size - acc.length)
          cases hEv : selEv acc.isEmpty sched with
          | readDone =>
              dsimp only
              cases hE : (attempt s.rsrc (s.size - acc.length)).2.1 with
              | some e =>
                  dsimp only
                  by_cases hemp : (acc ++ (attempt s.rsrc (s.size - acc.length)).1).isEmpty
                  · rw [if_pos hemp]
                    exact ⟨fun bs hbs => (by cases hbs), hp, rfl⟩
                  · rw [if_neg hemp]
                    refine ⟨fun bs hbs => ?_, hp, rfl⟩
                    cases hbs
                    simp only [List.length_append]
                    omega
              | none =>
                  dsimp only
                  have := ih { s with rsrc := (attempt s.rsrc (s.size - acc.length)).2.2 }
                    (acc ++ (attempt s.rsrc (s.size - acc.length)).1) (schedTail sched)
                    (by simp only [List.length_append]; omega)
                    (by exact hp)
                  exact this
          | timeout =>
              dsimp only
              refine ⟨fun bs hbs => (by cases hbs; exact hacc), fun cs hcs => ?_, rfl⟩
              cases hcs
              omega
          | cancel =>
              dsimp only
              by_cases hemp : acc.isEmpty
              · rw [if_pos hemp]
                refine ⟨fun bs hbs => (by cases hbs), fun cs hcs => ?_, rfl⟩
                cases hcs
                omega
              · rw [if_neg hemp]
                refine ⟨fun bs hbs => (by cases hbs; exact hacc), fun cs hcs => ?_, rfl⟩
                cases hcs
                omega
      · rw [if_neg hlt]
        exact ⟨fun bs hbs => (by cases hbs; exact hacc), hp, rfl⟩

/-- One `Next` call returns a batch no larger than the size and keeps
any parked pending chunk within the size. -/
theorem next_bound (s : Reader) (sched : List Ev)
    (hp : ∀ cs, s.pending = some cs → cs.length ≤ s.size) :
    (∀ bs, (s.next sched).1 = some bs → bs.length ≤ s.size) ∧
    (∀ cs, (s.next sched).2.2.pending = some cs → cs.length ≤ s.size) ∧
    (s.next sched).2.2.size = s.size := by
  rw [Reader.next]
  cases hpe : s.pending with
  | none =>
      dsimp only [afterPending]
      cases he : s.err with
      | some e =>
          dsimp only
          exact ⟨fun bs hbs => (by cases hbs), fun cs hcs => hp cs (hpe ▸ hcs), rfl⟩
      | none => exact nextLoop_bound (s.size + 1) s [] sched (by simp) hp
  | some cs =>
      dsimp only
      by_cases hc : schedHead sched = Ev.cancel
      · rw [if_pos hc]
        exact ⟨fun bs hbs => (by cases hbs), fun cs' hcs' => hp cs' (hpe ▸ hcs'), rfl⟩
      · rw [if_neg hc]
        dsimp only [afterPending]
        cases he : s.err with
        | some e =>
            dsimp only
            by_cases hemp : cs.isEmpty
            · rw [if_pos hemp]
              exact ⟨fun bs hbs => (by cases hbs), fun cs' hcs' => (by cases hcs'), rfl⟩
            · rw [if_neg hemp]
              exact ⟨fun bs hbs => (by cases hbs; exact hp cs hpe),
                     fun cs' hcs' => (by cases hcs'), rfl⟩
        | none =>
            dsimp only
            exact nextLoop_bound (s.size + 1) { s with pending := none, err := none } cs
              (schedTail sched) (hp cs hpe) (fun cs' hcs' => (by cases hcs'))

/-- The final batch `Finish` can return is the parked pending chunk, so
it too is bounded by the size. -/
theorem finish_bound (s : Reader)
    (hp : ∀ cs, s.pending = some cs → cs.length ≤ s.size) :
    ∀ bs, (s.finish).1 = some bs → bs.length ≤ s.size := by
  rw [Reader.finish]
  by_cases hrn : s.rnil = true
  · rw [if_pos hrn]
    exact fun bs hbs => (by cases hbs)
  · rw [if_neg hrn]
    cases hpe : s.pending with
    | none => exact fun bs hbs => (by cases hbs)
    | some cs => exact fun bs hbs => (by cases hbs; exact hp cs hpe)

/-- All batches produced over any run of `Next` calls stay within the
size bound, and so does the final state's parked chunk. -/
theorem runNexts_bound (scheds : List (List Ev)) :
    ∀ (s : Reader), (∀ cs, s.pending = some cs → cs.length ≤ s.size) →
      (∀ b, b ∈ (runNexts s scheds).1 → b.length ≤ s.size) ∧
      (∀ cs, (runNexts s scheds).2.pending = some cs → cs.length ≤ s.size) ∧
      (runNexts s scheds).2.size = s.size := by
  induction scheds with
  | nil =>
      intro s hp
      exact ⟨fun b hb => (by cases hb), hp, rfl⟩
  | cons sched rest ih =>
      intro s hp
      obtain ⟨h1, h2, h3⟩ := next_bound s sched hp
      obtain ⟨ih1, ih2, ih3⟩ := ih (s.next sched).2.2
        (fun cs hcs => (by rw [h3]; exact h2 cs hcs))
      rw [runNexts]
      dsimp only
      refine ⟨fun b hb => ?_, fun cs hcs => h3 ▸ ih2 cs hcs, by rw [ih3, h3]⟩
      rcases List.mem_append.mp hb with hb | hb
      · cases hbo : (s.next sched).1 with
        | none => rw [hbo] at hb; cases hb
        | some bs =>
            rw [hbo] at hb
            simp only [Option.toList_some, List.mem_singleton] at hb
            subst hb
            exact h1 b hbo
      · exact h3 ▸ ih1 b hb

/-- A deterministic model of the `io.Writer` sink handed to `NewWriter`:
`calls` records the payload of every `Write` call made against the sink
in order, `accept i` is how many bytes the i-th call accepts (the `nn`
it returns, capped by the payload length), and `werr i` is the error the
i-th call returns. -/
structure Snk where
  calls : List (List Nat)
  accept : Nat → Nat
  werr : Nat → Option Err

/-- The sink's `write(p)`. -/
def Snk.write (s : Snk) (p : List Nat) : Nat × Option Err × Snk :=
  (min (s.accept s.calls.length) p.length, s.werr s.calls.length,
   { s with calls := s.calls ++ [p] })

/-- State of `batchio.Writer`: `snk` is the sink `w.w`, `cap` is
`cap(w.buf)` (the `size` given at construction), `buf` the buffered
bytes, `err` the sticky error `w.err`.  The `flushChan`/`timer`/
`writeDone` machinery is the background goroutine, which per the code's
own invariant runs iff `buf` is nonempty; its effects appear through
`Writer.backgroundWrite`. -/
structure Writer where
  snk : Snk
  cap : Nat
  tafb : Int
  buf : List Nat
  err : Option Err

/-- Model of `Writer.backgroundWrite` (lines 230-250): one write of the whole
buffer while holding the lock; the byte count is discarded
(`_, w.err = w.w.Write(w.buf)`), `w.err` is overwritten with this
write's error — even back to nil — and the buffer is reset. -/
def Writer.backgroundWrite (w : Writer) : Writer :=
  { w with snk := (w.snk.write w.buf).2.2, err := (w.snk.write w.buf).2.1, buf := [] }

/-- The synchronous chunk loop of `Writer.Write` (lines 199-208): while
the remaining input is at least a full buffer's worth, write one
capacity-sized chunk directly to the sink.  `nn, w.err = ...` records
the error, but the `if err != nil` check that follows tests the
function's named return value `err` — still nil at this point — so the
loop never exits early.  The fuel only bounds the iterations:
`Writer.write` passes `len(p) + 1`, which cannot be exhausted as long as
the sink accepts at least one byte per call (against a zero-progress
sink the Go loop spins forever). -/
def syncChunks : Nat → Writer → List Nat → Nat → Nat × List Nat × Writer
  | 0, w, p, n => (n, p, w)
  | fuel + 1, w, p, n =>
      if w.cap ≤ p.length then
        syncChunks fuel
          { w with snk := (w.snk.write (p.take w.cap)).2.2,
                   err := (w.snk.write (p.take w.cap)).2.1 }
          (p.drop (w.snk.write (p.take w.cap)).1) (n + (w.snk.write (p.take w.cap)).1)
      else (n, p, w)

/-- Lines 196-227 of `Writer.Write`: the synchronous chunk loop followed
by buffering the sub-capacity remainder (the buffer is empty when this
point is reached) and arming the timer and background goroutine if the
buffer is now nonempty.  The call returns `n, nil` here regardless of
chunk errors — the consequence of the dead `if err != nil` check. -/
def finishWrite (w : Writer) (p : List Nat) (n : Nat) : Nat × Option Err × Writer :=
  ((syncChunks (p.length + 1) w p n).1 + (syncChunks (p.length + 1) w p n).2.1.length, none,
   { (syncChunks (p.length + 1) w p n).2.2 with
       buf := (syncChunks (p.length + 1) w p n).2.2.buf ++ (syncChunks (p.length + 1) w p n).2.1 })

/-- The count `n = copy(w.buf[len(w.buf):cap(w.buf)], p)` of the top-up phase. -/
def topN (w : Writer) (p : List Nat) : Nat := min (w.cap - w.buf.length) p.length

/-- The buffer after the top-up phase appended as much of `p` as fits. -/
def topUp (w : Writer) (p : List Nat) : Writer :=
  { w with buf := w.buf ++ p.take (w.cap - w.buf.length) }

/-- Model of `Writer.Write` (lines 172-228): empty writes return immediately; a
sticky error rejects the write; a waiting buffer is topped up and, if
full, handed to the background goroutine (`flushLocked`); then whole
capacity-sized chunks go directly to the sink and the remainder is
buffered. -/
def Writer.write (w : Writer) (p : List Nat) : Nat × Option Err × Writer :=
  if p.length = 0 then (0, none, w)
  else if w.err ≠ none then (0, w.err, w)
  else if 0 < w.buf.length then
    if (topUp w p).buf.length < w.cap then (topN w p, none, topUp w p)
    else
      -- w.flushLocked(): signal the goroutine, which writes the buffer
      if ((topUp w p).backgroundWrite).err ≠ none then
        (topN w p, ((topUp w p).backgroundWrite).err, (topUp w p).backgroundWrite)
      else finishWrite ((topUp w p).backgroundWrite) (p.drop (topN w p)) (topN w p)
  else finishWrite w p 0

/-- Model of `Writer.Flush` (lines 253-260): the `for len(w.buf) > 0` loop runs at
most once because `backgroundWrite` empties the buffer. -/
def Writer.flush (w : Writer) : Option Err × Writer :=
  if 0 < w.buf.length then ((w.backgroundWrite).err, w.backgroundWrite)
  else (w.err, w)

/-- The timer path: `time.AfterFunc` fires, signalling the armed
goroutine, which performs the background write.  A goroutine is armed
iff the buffer is nonempty. -/
def Writer.timerFire (w : Writer) : Writer :=
  if 0 < w.buf.length then w.backgroundWrite else w

/-- Model of `NewWriter` (lines 151-167): a `none` result models the construction
panic. -/
def NewWriter (wk : Option Snk) (size : Int) (timeAfterFirstByte : Int) : Option Writer :=
  match wk with
  | none => none
  | some snk =>
      if size ≤ 0 then none
      else if timeAfterFirstByte < 0 then none
      else some { snk := snk, cap := size.toNat, tafb := timeAfterFirstByte,
                  buf := [], err := none }

/-- The operations a caller (and the timer) can perform on a Writer. -/
inductive WOp where
  | doWrite : List Nat → WOp
  | doFlush : WOp
  | doTimer : WOp

/-- Drive a Writer through a sequence of writes, flushes and timer
firings. -/
def runW : Writer → List WOp → Writer
  | w, [] => w
  | w, WOp.doWrite p :: ops => runW (w.write p).2.2 ops
  | w, WOp.doFlush :: ops => runW (w.flush).2 ops
  | w, WOp.doTimer :: ops => runW w.timerFire ops

/-- C10: calling `Writer.Write` with an empty slice returns `(0, nil)` at once
and leaves the Writer untouched — the `len(p) == 0` fast path sits
before the lock and before the sticky-error check, so this holds even
when a previous sink write has already failed. -/
theorem c10_empty_write (w : Writer) : w.write [] = (0, none, w) := rfl

/-- The sink of the C4 counterexample: its first write fails with an I/O
error, later writes succeed; it always accepts all bytes offered. -/
def c4Snk : Snk := { calls := [], accept := fun _ => 100, werr := fun i => if i = 0 then some (Err.ioErr 7) else none }

/-- A fresh capacity-2 Writer over that sink. -/
def c4Writer : Writer := { snk := c4Snk, cap := 2, tafb := 0, buf := [], err := none }

/-- C4 fails on the code: writing `[1,2,3,4,5]` performs two synchronous
chunk writes, the first of which fails, yet `Write` returns `(5, nil)`.
The loop stores the failure in `w.err` but tests the never-assigned
named return `err`, so it neither returns the error nor stops; the
second, successful chunk then overwrites `w.err` back to nil, so the
error is not even left sticky. -/
theorem c4_error_lost :
    c4Snk.werr 0 = some (Err.ioErr 7) ∧
    (c4Writer.write [1, 2, 3, 4, 5]).1 = 5 ∧
    (c4Writer.write [1, 2, 3, 4, 5]).2.1 = none ∧
    ((c4Writer.write [1, 2, 3, 4, 5]).2.2).err = none ∧
    ((c4Writer.write [1, 2, 3, 4, 5]).2.2).snk.calls = [[1, 2], [3, 4]] ∧
    ((c4Writer.write [1, 2, 3, 4, 5]).2.2).buf = [5] := by
  decide

/-- Against a sink that accepts at least a full buffer per call, the
synchronous chunk loop writes a sequence of exactly capacity-sized
chunks straight to the sink, leaves a remainder strictly smaller than
the capacity, accounts every byte it consumed, and touches neither the
buffer nor the sink script. -/
theorem syncChunks_full (fuel : Nat) :
    ∀ (w : Writer) (p : List Nat) (n : Nat),
      p.length < fuel → 1 ≤ w.cap → (∀ i, w.cap ≤ w.snk.accept i) →
      ∃ chunks : List (List Nat),
        (syncChunks fuel w p n).2.2.snk.calls = w.snk.calls ++ chunks ∧
        (∀ c, c ∈ chunks → c.length = w.cap) ∧
        chunks.flatten ++ (syncChunks fuel w p n).2.1 = p ∧
        (syncChunks fuel w p n).2.1.length < w.cap ∧
        (syncChunks fuel w p n).2.2.buf = w.buf ∧
        (syncChunks fuel w p n).2.2.cap = w.cap ∧
        (syncChunks fuel w p n).1 = n + chunks.flatten.length := by
  induction fuel with
  | zero => intro w p n hf; omega
  | succ fuel ih =>
      intro w p n hf hcap hacc
      rw [syncChunks]
      by_cases hc : w.cap ≤ p.length
      · rw [if_pos hc]
        have htake : (p.take w.cap).length = w.cap := by
          simp only [List.length_take]
          omega
        have hnn : (w.snk.write (p.take w.cap)).1 = w.cap := by
          rw [Snk.write]
          dsimp only
          rw [htake]
          have := hacc w.snk.calls.length
          omega
        have hwerr : ∀ i,
            ({ w with snk := (w.snk.write (p.take w.cap)).2.2,
                      err := (w.snk.write (p.take w.cap)).2.1 } : Writer).cap ≤
              ({ w with snk := (w.snk.write (p.take w.cap)).2.2,
                        err := (w.snk.write (p.take w.cap)).2.1 } : Writer).snk.accept i := by
          intro i
          exact hacc i
        have hlen : (p.drop (w.snk.write (p.take w.cap)).1).length < fuel := by
          rw [hnn]
          simp only [List.length_drop]
          omega
        obtain ⟨chunks, hc1, hc2, hc3, hc4, hc5, hc6, hc7⟩ :=
          ih { w with snk := (w.snk.write (p.take w.cap)).2.2,
                      err := (w.snk.write (p.take w.cap)).2.1 }
            (p.drop (w.snk.write (p.take w.cap)).1) (n + (w.snk.write (p.take w.cap)).1)
            hlen hcap hwerr
        refine ⟨p.take w.cap :: chunks, ?_, ?_, ?_, hc4, hc5, hc6, ?_⟩
        · rw [hc1]
          dsimp only [Snk.write]
          simp [List.append_assoc]
        · intro c hcmem
          rcases List.mem_cons.mp hcmem with hcm | hcm
          · rw [hcm]; exact htake
          · exact hc2 c hcm
        · simp only [List.flatten_cons, List.append_assoc, hc3]
          rw [hnn]
          exact List.take_append_drop _ _
        · rw [hc7, hnn]
          simp only [List.flatten_cons, List.length_append, htake]
          omega
      · rw [if_neg hc]
        exact ⟨[], by simp, by simp, by simp, by dsimp only; omega, rfl, rfl, by simp⟩

/-- C8: a `Write` entered with an empty buffer (the state after any
buffered data has been topped up and flushed) and input at least as
large as the capacity splits the input into whole-capacity chunks
written synchronously and directly to the sink, in order, buffering
only a final remainder strictly smaller than the capacity; every input
byte is accepted. -/
theorem c8_split (w : Writer) (p : List Nat)
    (hbuf : w.buf = []) (herr : w.err = none) (hcap : 1 ≤ w.cap)
    (hacc : ∀ i, w.cap ≤ w.snk.accept i) (hp : w.cap ≤ p.length) :
    ∃ chunks : List (List Nat),
      ((w.write p).2.2).snk.calls = w.snk.calls ++ chunks ∧
      (∀ c, c ∈ chunks → c.length = w.cap) ∧
      chunks.flatten ++ ((w.write p).2.2).buf = p ∧
      ((w.write p).2.2).buf.length < w.cap ∧
      (w.write p).1 = p.length ∧
      (w.write p).2.1 = none := by
  rw [Writer.write]
  rw [if_neg (by omega)]
  rw [if_neg (by simp [herr])]
  rw [if_neg (by simp [hbuf])]
  dsimp only [finishWrite]
  obtain ⟨chunks, h1, h2, h3, h4, h5, h6, h7⟩ :=
    syncChunks_full (p.length + 1) w p 0 (by omega) hcap hacc
  refine ⟨chunks, h1, h2, ?_, ?_, ?_, rfl⟩
  · rw [h5, hbuf]
    simpa using h3
  · rw [h5, hbuf]
    simpa using h4
  · rw [h7]
    have := congrArg List.length h3
    simp only [List.length_append] at this
    omega

/-- A fresh capacity-2 Writer over a clean sink that accepts 9 bytes per
call. -/
def c8Writer : Writer := { snk := { calls := [], accept := fun _ => 9, werr := fun _ => none }, cap := 2, tafb := 0, buf := [], err := none }

/-- Witness for C8 at capacity 2 and input `[1,2,3,4,5]`: chunks
`[1,2]` and `[3,4]` go straight to the sink and `[5]` is buffered. -/
theorem c8_split_witness :
    ∃ chunks : List (List Nat),
      ((c8Writer.write [1, 2, 3, 4, 5]).2.2).snk.calls = c8Writer.snk.calls ++ chunks ∧
      (∀ c, c ∈ chunks → c.length = c8Writer.cap) ∧
      chunks.flatten ++ ((c8Writer.write [1, 2, 3, 4, 5]).2.2).buf = [1, 2, 3, 4, 5] ∧
      ((c8Writer.write [1, 2, 3, 4, 5]).2.2).buf.length < c8Writer.cap ∧
      (c8Writer.write [1, 2, 3, 4, 5]).1 = 5 ∧
      (c8Writer.write [1, 2, 3, 4, 5]).2.1 = none :=
  c8_split c8Writer [1, 2, 3, 4, 5] rfl rfl (by decide) (by intro i; norm_num [c8Writer]) (by decide)

/-- Against any sink that accepts at least one byte per call, the chunk
loop only ever hands capacity-sized payloads to the sink, exits with a
remainder strictly below capacity, and leaves buffer, capacity and the
sink's accept script untouched. -/
theorem syncChunks_bound (fuel : Nat) :
    ∀ (w : Writer) (p : List Nat) (n : Nat),
      p.length < fuel → 1 ≤ w.cap → (∀ i, 1 ≤ w.snk.accept i) →
      (∀ c, c ∈ w.snk.calls → c.length ≤ w.cap) →
      (∀ c, c ∈ (syncChunks fuel w p n).2.2.snk.calls → c.length ≤ w.cap) ∧
      (syncChunks fuel w p n).2.1.length < w.cap ∧
      (syncChunks fuel w p n).2.2.buf = w.buf ∧
      (syncChunks fuel w p n).2.2.cap = w.cap ∧
      (syncChunks fuel w p n).2.2.snk.accept = w.snk.accept := by
  induction fuel with
  | zero => intro w p n hf; omega
  | succ fuel ih =>
      intro w p n hf hcap hacc hcalls
      rw [syncChunks]
      by_cases hc : w.cap ≤ p.length
      · rw [if_pos hc]
        have htake : (p.take w.cap).length = w.cap := by
          simp only [List.length_take]
          omega
        have hnn1 : 1 ≤ (w.snk.write (p.take w.cap)).1 := by
          rw [Snk.write]
          dsimp only
          rw [htake]
          have := hacc w.snk.calls.length
          omega
        have hnnle : (w.snk.write (p.take w.cap)).1 ≤ p.length := by
          rw [Snk.write]
          dsimp only
          rw [htake]
          omega
        have hlen : (p.drop (w.snk.write (p.take w.cap)).1).length < fuel := by
          simp only [List.length_drop]
          omega
        have hcalls' : ∀ c, c ∈ ((w.snk.write (p.take w.cap)).2.2).calls →
            c.length ≤ w.cap := by
          intro c hcmem
          dsimp only [Snk.write] at hcmem
          rcases List.mem_append.mp hcmem with hcm | hcm
          · exact hcalls c hcm
          · rw [List.mem_singleton.mp hcm]
            rw [htake]
        exact ih { w with snk := (w.snk.write (p.take w.cap)).2.2,
                          err := (w.snk.write (p.take w.cap)).2.1 }
          (p.drop (w.snk.write (p.take w.cap)).1) (n + (w.snk.write (p.take w.cap)).1)
          hlen hcap hacc hcalls'
      · rw [if_neg hc]
        exact ⟨hcalls, by dsimp only; omega, rfl, rfl, rfl⟩

/-- One `Write` call keeps every sink payload within the capacity and
the buffer within the capacity, and does not change the capacity or the
sink's accept script. -/
theorem write_bound (w : Writer) (p : List Nat)
    (hcap : 1 ≤ w.cap) (hacc : ∀ i, 1 ≤ w.snk.accept i)
    (hbuf : w.buf.length ≤ w.cap) (hcalls : ∀ c, c ∈ w.snk.calls → c.length ≤ w.cap) :
    ((w.write p).2.2).buf.length ≤ w.cap ∧
    (∀ c, c ∈ ((w.write p).2.2).snk.calls → c.length ≤ w.cap) ∧
    ((w.write p).2.2).cap = w.cap ∧
    ((w.write p).2.2).snk.accept = w.snk.accept := by
  rw [Writer.write]
  by_cases hp0 : p.length = 0
  · rw [if_pos hp0]
    exact ⟨hbuf, hcalls, rfl, rfl⟩
  rw [if_neg hp0]
  by_cases he : w.err ≠ none
  · rw [if_pos he]
    exact ⟨hbuf, hcalls, rfl, rfl⟩
  rw [if_neg he]
  have htopb : (topUp w p).buf.length ≤ w.cap := by
    dsimp only [topUp]
    simp only [List.length_append, List.length_take]
    omega
  by_cases hb : 0 < w.buf.length
  · rw [if_pos hb]
    by_cases hfull : (topUp w p).buf.length < w.cap
    · rw [if_pos hfull]
      exact ⟨le_of_lt hfull, hcalls, rfl, rfl⟩
    · rw [if_neg hfull]
      have hbgcalls : ∀ c, c ∈ ((topUp w p).backgroundWrite).snk.calls →
          c.length ≤ w.cap := by
        intro c hcmem
        dsimp only [Writer.backgroundWrite, Snk.write, topUp] at hcmem
        rcases List.mem_append.mp hcmem with hcm | hcm
        · exact hcalls c hcm
        · rw [List.mem_singleton.mp hcm]
          simpa only [topUp, List.length_append, List.length_take] using htopb
      by_cases hberr : ((topUp w p).backgroundWrite).err ≠ none
      · rw [if_pos hberr]
        exact ⟨by simp [Writer.backgroundWrite], hbgcalls, rfl, rfl⟩
      · rw [if_neg hberr]
        dsimp only [finishWrite]
        obtain ⟨s1, s2, s3, s4, s5⟩ := syncChunks_bound ((p.drop (topN w p)).length + 1)
          ((topUp w p).backgroundWrite) (p.drop (topN w p)) (topN w p)
          (by omega) hcap hacc hbgcalls
        refine ⟨?_, s1, s4, s5⟩
        have hbb : ((topUp w p).backgroundWrite).buf = ([] : List Nat) := rfl
        have h2' : (syncChunks ((p.drop (topN w p)).length + 1) ((topUp w p).backgroundWrite)
            (p.drop (topN w p)) (topN w p)).2.1.length < w.cap := s2
        simp only [List.length_append, s3, hbb, List.length_nil]
        omega
  · rw [if_neg hb]
    dsimp only [finishWrite]
    have hbempty : w.buf = [] := by
      cases hbuf' : w.buf with
      | nil => rfl
      | cons a l => rw [hbuf'] at hb; simp at hb
    obtain ⟨s1, s2, s3, s4, s5⟩ := syncChunks_bound (p.length + 1) w p 0 (by omega)
      hcap hacc hcalls
    refine ⟨?_, s1, s4, s5⟩
    have h2' : (syncChunks (p.length + 1) w p 0).2.1.length < w.cap := s2
    simp only [List.length_append, s3, hbempty, List.length_nil]
    omega

/-- The background write (flush path or timer path) keeps every sink
payload within the capacity and empties the buffer. -/
theorem bg_bound (w : Writer)
    (hbuf : w.buf.length ≤ w.cap) (hcalls : ∀ c, c ∈ w.snk.calls → c.length ≤ w.cap) :
    (w.backgroundWrite).buf.length ≤ w.cap ∧
    (∀ c, c ∈ (w.backgroundWrite).snk.calls → c.length ≤ w.cap) ∧
    (w.backgroundWrite).cap = w.cap ∧
    (w.backgroundWrite).snk.accept = w.snk.accept := by
  refine ⟨by simp [Writer.backgroundWrite], ?_, rfl, rfl⟩
  intro c hcmem
  dsimp only [Writer.backgroundWrite, Snk.write] at hcmem
  rcases List.mem_append.mp hcmem with hcm | hcm
  · exact hcalls c hcm
  · rw [List.mem_singleton.mp hcm]
    exact hbuf

/-- Every sink payload over any run of Writer operations stays within
the capacity fixed at construction. -/
theorem runW_bound (ops : List WOp) :
    ∀ (w : Writer), 1 ≤ w.cap → (∀ i, 1 ≤ w.snk.accept i) →
      w.buf.length ≤ w.cap → (∀ c, c ∈ w.snk.calls → c.length ≤ w.cap) →
      (∀ c, c ∈ (runW w ops).snk.calls → c.length ≤ w.cap) ∧
      (runW w ops).cap = w.cap := by
  induction ops with
  | nil => intro w _ _ _ hcalls; exact ⟨hcalls, rfl⟩
  | cons op rest ih =>
      intro w hcap hacc hbuf hcalls
      cases op with
      | doWrite p =>
          obtain ⟨b1, b2, b3, b4⟩ := write_bound w p hcap hacc hbuf hcalls
          obtain ⟨i1, i2⟩ := ih (w.write p).2.2 (by rw [b3]; exact hcap)
            (by rw [b4]; exact hacc) (by rw [b3]; exact b1)
            (by intro c hcmem; rw [b3]; exact b2 c hcmem)
          rw [runW]
          exact ⟨fun c hcmem => (by rw [← b3]; exact i1 c hcmem), by rw [i2, b3]⟩
      | doFlush =>
          rw [runW]
          dsimp only [Writer.flush]
          by_cases hb : 0 < w.buf.length
          · rw [if_pos hb]
            obtain ⟨b1, b2, b3, b4⟩ := bg_bound w hbuf hcalls
            obtain ⟨i1, i2⟩ := ih w.backgroundWrite (by rw [b3]; exact hcap)
              (by rw [b4]; exact hacc) (by rw [b3]; exact b1)
              (by intro c hcmem; rw [b3]; exact b2 c hcmem)
            exact ⟨fun c hcmem => (by rw [← b3]; exact i1 c hcmem), by rw [i2, b3]⟩
          · rw [if_neg hb]
            exact ih w hcap hacc hbuf hcalls
      | doTimer =>
          rw [runW]
          dsimp only [Writer.timerFire]
          by_cases hb : 0 < w.buf.length
          · rw [if_pos hb]
            obtain ⟨b1, b2, b3, b4⟩ := bg_bound w hbuf hcalls
            obtain ⟨i1, i2⟩ := ih w.backgroundWrite (by rw [b3]; exact hcap)
              (by rw [b4]; exact hacc) (by rw [b3]; exact b1)
              (by intro c hcmem; rw [b3]; exact b2 c hcmem)
            exact ⟨fun c hcmem => (by rw [← b3]; exact i1 c hcmem), by rw [i2, b3]⟩
          · rw [if_neg hb]
            exact ih w hcap hacc hbuf hcalls

/-- A successful `NewWriter` stores exactly the arguments it was given,
and only accepts positive size and non-negative TAFB. -/
theorem NewWriter_some (snk : Snk) (sz t : Int) (w : Writer)
    (h : NewWriter (some snk) sz t = some w) :
    w = { snk := snk, cap := sz.toNat, tafb := t, buf := [], err := none } ∧
      0 < sz ∧ 0 ≤ t := by
  rw [NewWriter] at h
  by_cases h1 : sz ≤ 0
  · rw [if_pos h1] at h; cases h
  · rw [if_neg h1] at h
    by_cases h2 : t < 0
    · rw [if_pos h2] at h; cases h
    · rw [if_neg h2] at h
      exact ⟨(Option.some.injEq .. ▸ h).symm, by omega, by omega⟩

/-- C2: every batch either component produces is bounded by the `size`
given at construction — every slice returned by `Reader.Next`, the final
slice returned by `Reader.Finish`, and the payload of every single call
the Writer makes to the underlying sink's `Write` (for the Writer, under
any mix of writes, flushes and timer firings, against any sink that
accepts at least one byte per call). -/
theorem c2_size_bound :
    (∀ (src : Src) (sz t : Int) (r : Reader) (scheds : List (List Ev)),
        NewReader (some src) sz t = some r →
        (∀ b, b ∈ (runNexts r scheds).1 → b.length ≤ sz.toNat) ∧
        (∀ bs, ((runNexts r scheds).2.finish).1 = some bs → bs.length ≤ sz.toNat)) ∧
    (∀ (snk : Snk) (sz t : Int) (w : Writer) (ops : List WOp),
        NewWriter (some snk) sz t = some w → (∀ i, 1 ≤ snk.accept i) →
        snk.calls = [] →
        ∀ c, c ∈ (runW w ops).snk.calls → c.length ≤ sz.toNat) := by
  constructor
  · intro src sz t r scheds hnew
    have hr := NewReader_some src sz t r hnew
    have hsize : r.size = sz.toNat := by rw [hr]
    have hp : ∀ cs, r.pending = some cs → cs.length ≤ r.size := by
      rw [hr]
      intro cs hcs
      cases hcs
    obtain ⟨b1, b2, b3⟩ := runNexts_bound scheds r hp
    constructor
    · intro b hb
      rw [← hsize]
      exact b1 b hb
    · intro bs hbs
      have hfin := finish_bound (runNexts r scheds).2
        (fun cs hcs => (by rw [b3]; exact b2 cs hcs)) bs hbs
      rw [b3, hsize] at hfin
      exact hfin
  · intro snk sz t w ops hnew hacc hfresh
    obtain ⟨hw, hsz, _⟩ := NewWriter_some snk sz t w hnew
    have hcap : 1 ≤ w.cap := by rw [hw]; dsimp only; omega
    have hcapeq : w.cap = sz.toNat := by rw [hw]
    have hacc' : ∀ i, 1 ≤ w.snk.accept i := by rw [hw]; intro i; exact hacc i
    have hbuf : w.buf.length ≤ w.cap := by rw [hw]; simp
    have hcalls : ∀ c, c ∈ w.snk.calls → c.length ≤ w.cap := by
      rw [hw]
      intro c hc
      dsimp only at hc
      rw [hfresh] at hc
      cases hc
    obtain ⟨i1, _⟩ := runW_bound ops w hcap hacc' hbuf hcalls
    intro c hcmem
    rw [← hcapeq]
    exact i1 c hcmem

/-- Witness for C2: the reader half at size 2 over `[1,2,3]`, the writer
half at capacity 2 writing five bytes then flushing. -/
theorem c2_size_bound_witness :
    NewReader (some (srcOf [1, 2, 3] (fun _ => 5) Err.eof none)) 2 0 = some c1wReader ∧
    (∀ b, b ∈ (runNexts c1wReader [[], [], []]).1 → b.length ≤ (2 : Int).toNat) ∧
    NewWriter (some c8Writer.snk) 2 0 = some c8Writer ∧
    (∀ i, 1 ≤ c8Writer.snk.accept i) ∧
    c8Writer.snk.calls = [] ∧
    (∀ c, c ∈ (runW c8Writer [WOp.doWrite [1, 2, 3, 4, 5], WOp.doFlush]).snk.calls →
      c.length ≤ (2 : Int).toNat) :=
  ⟨rfl,
   (c2_size_bound.1 (srcOf [1, 2, 3] (fun _ => 5) Err.eof none) 2 0 c1wReader
     [[], [], []] rfl).1,
   rfl, (by intro i; norm_num [c8Writer]), rfl,
   c2_size_bound.2 c8Writer.snk 2 0 c8Writer [WOp.doWrite [1, 2, 3, 4, 5], WOp.doFlush]
     rfl (by intro i; norm_num [c8Writer]) rfl⟩

/-- The read loop never changes the configured size or TAFB. -/
theorem nextLoop_params (fuel : Nat) :
    ∀ (s : Reader) (acc : List Nat) (sched : List Ev),
      ((nextLoop fuel s acc sched).2.2).size = s.size ∧
      ((nextLoop fuel s acc sched).2.2).tafb = s.tafb := by
  induction fuel with
  | zero => intro s acc sched; exact ⟨rfl, rfl⟩
  | succ fuel ih =>
      intro s acc sched
      rw [nextLoop]
      by_cases hlt : acc.length < s.size
      · rw [if_pos hlt]
        by_cases hrn : s.rnil = true
        · rw [if_pos hrn]
          exact ⟨rfl, rfl⟩
        · rw [if_neg hrn]
          cases hEv : selEv acc.isEmpty sched with
          | readDone =>
              dsimp only
              cases hE : (attempt s.rsrc (s.size - acc.length)).2.1 with
              | some e =>
                  dsimp only
                  by_cases hemp : (acc ++ (attempt s.rsrc (s.size - acc.length)).1).isEmpty
                  · rw [if_pos hemp]; exact ⟨rfl, rfl⟩
                  · rw [if_neg hemp]; exact ⟨rfl, rfl⟩
              | none =>
                  dsimp only
                  exact ih _ _ _
          | timeout => exact ⟨rfl, rfl⟩
          | cancel =>
              dsimp only
              by_cases hemp : acc.isEmpty
              · rw [if_pos hemp]; exact ⟨rfl, rfl⟩
              · rw [if_neg hemp]; exact ⟨rfl, rfl⟩
      · rw [if_neg hlt]; exact ⟨rfl, rfl⟩

/-- A `Next` call never changes the configured size or TAFB. -/
theorem next_params (s : Reader) (sched : List Ev) :
    ((s.next sched).2.2).size = s.size ∧ ((s.next sched).2.2).tafb = s.tafb := by
  rw [Reader.next]
  cases hp : s.pending with
  | none =>
      dsimp only [afterPending]
      cases he : s.err with
      | some e => exact ⟨rfl, rfl⟩
      | none => exact nextLoop_params (s.size + 1) s [] sched
  | some cs =>
      dsimp only
      by_cases hc : schedHead sched = Ev.cancel
      · rw [if_pos hc]; exact ⟨rfl, rfl⟩
      · rw [if_neg hc]
        dsimp only [afterPending]
        cases he : s.err with
        | some e =>
            dsimp only
            by_cases hemp : cs.isEmpty
            · rw [if_pos hemp]; exact ⟨rfl, rfl⟩
            · rw [if_neg hemp]; exact ⟨rfl, rfl⟩
        | none =>
            dsimp only
            exact nextLoop_params (s.size + 1) _ cs (schedTail sched)

/-- A `Finish` call never changes the configured size or TAFB. -/
theorem finish_params (s : Reader) :
    ((s.finish).2.2).size = s.size ∧ ((s.finish).2.2).tafb = s.tafb := by
  rw [Reader.finish]
  by_cases hrn : s.rnil = true
  · rw [if_pos hrn]; exact ⟨rfl, rfl⟩
  · rw [if_neg hrn]
    cases hp : s.pending with
    | none => exact ⟨rfl, rfl⟩
    | some cs => exact ⟨rfl, rfl⟩

/-- The chunk loop never changes the capacity or TAFB. -/
theorem syncChunks_params (fuel : Nat) :
    ∀ (w : Writer) (p : List Nat) (n : Nat),
      ((syncChunks fuel w p n).2.2).cap = w.cap ∧
      ((syncChunks fuel w p n).2.2).tafb = w.tafb := by
  induction fuel with
  | zero => intro w p n; exact ⟨rfl, rfl⟩
  | succ fuel ih =>
      intro w p n
      rw [syncChunks]
      by_cases hc : w.cap ≤ p.length
      · rw [if_pos hc]
        exact ih _ _ _
      · rw [if_neg hc]; exact ⟨rfl, rfl⟩

/-- A `Write` call never changes the capacity or TAFB. -/
theorem write_params (w : Writer) (p : List Nat) :
    ((w.write p).2.2).cap = w.cap ∧ ((w.write p).2.2).tafb = w.tafb := by
  rw [Writer.write]
  by_cases hp0 : p.length = 0
  · rw [if_pos hp0]; exact ⟨rfl, rfl⟩
  rw [if_neg hp0]
  by_cases he : w.err ≠ none
  · rw [if_pos he]; exact ⟨rfl, rfl⟩
  rw [if_neg he]
  by_cases hb : 0 < w.buf.length
  · rw [if_pos hb]
    by_cases hfull : (topUp w p).buf.length < w.cap
    · rw [if_pos hfull]; exact ⟨rfl, rfl⟩
    · rw [if_neg hfull]
      by_cases hberr : ((topUp w p).backgroundWrite).err ≠ none
      · rw [if_pos hberr]; exact ⟨rfl, rfl⟩
      · rw [if_neg hberr]
        dsimp only [finishWrite]
        exact syncChunks_params _ _ _ _
  · rw [if_neg hb]
    dsimp only [finishWrite]
    exact syncChunks_params _ _ _ _

/-- Any run of Writer operations preserves the capacity and TAFB. -/
theorem runW_params (ops : List WOp) :
    ∀ (w : Writer), (runW w ops).cap = w.cap ∧ (runW w ops).tafb = w.tafb := by
  induction ops with
  | nil => intro w; exact ⟨rfl, rfl⟩
  | cons op rest ih =>
      intro w
      cases op with
      | doWrite p =>
          rw [runW]
          obtain ⟨e1, e2⟩ := write_params w p
          obtain ⟨i1, i2⟩ := ih (w.write p).2.2
          exact ⟨by rw [i1, e1], by rw [i2, e2]⟩
      | doFlush =>
          rw [runW]
          obtain ⟨i1, i2⟩ := ih (w.flush).2
          dsimp only [Writer.flush] at i1 i2 ⊢
          by_cases hb : 0 < w.buf.length
          · rw [if_pos hb] at i1 i2 ⊢
            exact ⟨i1, i2⟩
          · rw [if_neg hb] at i1 i2 ⊢
            exact ⟨i1, i2⟩
      | doTimer =>
          rw [runW]
          obtain ⟨i1, i2⟩ := ih w.timerFire
          dsimp only [Writer.timerFire] at i1 i2 ⊢
          by_cases hb : 0 < w.buf.length
          · rw [if_pos hb] at i1 i2 ⊢
            exact ⟨i1, i2⟩
          · rw [if_neg hb] at i1 i2 ⊢
            exact ⟨i1, i2⟩

/-- C9: construction of either component succeeds exactly when the
source/sink is present, the size is positive and the TAFB non-negative
(invalid parameters are a construction-time fault, modelled as `none`);
successful construction stores exactly the given parameters, and no
operation ever changes them afterwards. -/
theorem c9_construction :
    (∀ (r : Option Src) (sz t : Int),
        (NewReader r sz t).isSome = true ↔ r.isSome = true ∧ 0 < sz ∧ 0 ≤ t) ∧
    (∀ (wk : Option Snk) (sz t : Int),
        (NewWriter wk sz t).isSome = true ↔ wk.isSome = true ∧ 0 < sz ∧ 0 ≤ t) ∧
    (∀ (src : Src) (sz t : Int) (r : Reader), NewReader (some src) sz t = some r →
        r.size = sz.toNat ∧ r.tafb = t ∧ r.rsrc = src) ∧
    (∀ (snk : Snk) (sz t : Int) (w : Writer), NewWriter (some snk) sz t = some w →
        w.cap = sz.toNat ∧ w.tafb = t ∧ w.snk = snk) ∧
    (∀ (s : Reader) (sched : List Ev),
        ((s.next sched).2.2).size = s.size ∧ ((s.next sched).2.2).tafb = s.tafb) ∧
    (∀ (s : Reader), ((s.finish).2.2).size = s.size ∧ ((s.finish).2.2).tafb = s.tafb) ∧
    (∀ (w : Writer) (ops : List WOp),
        (runW w ops).cap = w.cap ∧ (runW w ops).tafb = w.tafb) := by
  refine ⟨?_, ?_, ?_, ?_, next_params, finish_params, fun w ops => runW_params ops w⟩
  · intro r sz t
    cases r with
    | none => simp [NewReader]
    | some src =>
        rw [NewReader]
        by_cases h1 : sz ≤ 0
        · rw [if_pos h1]; simp; omega
        · rw [if_neg h1]
          by_cases h2 : t < 0
          · rw [if_pos h2]; simp; omega
          · rw [if_neg h2]; simp; omega
  · intro wk sz t
    cases wk with
    | none => simp [NewWriter]
    | some snk =>
        rw [NewWriter]
        by_cases h1 : sz ≤ 0
        · rw [if_pos h1]; simp; omega
        · rw [if_neg h1]
          by_cases h2 : t < 0
          · rw [if_pos h2]; simp; omega
          · rw [if_neg h2]; simp; omega
  · intro src sz t r hnew
    rw [NewReader_some src sz t r hnew]
    exact ⟨rfl, rfl, rfl⟩
  · intro snk sz t w hnew
    rw [(NewWriter_some snk sz t w hnew).1]
    exact ⟨rfl, rfl, rfl⟩

/-- Witness for C9: valid parameters construct, a non-positive size does
not. -/
theorem c9_construction_witness :
    (NewReader (some (srcOf [] (fun _ => 1) Err.eof none)) 1 0).isSome = true ∧
    (NewWriter (some c8Writer.snk) 2 0).isSome = true ∧
    (NewReader (some (srcOf [] (fun _ => 1) Err.eof none)) 0 0).isSome ≠ true :=
  ⟨(c9_construction.1 _ 1 0).mpr ⟨rfl, by norm_num, by norm_num⟩,
   (c9_construction.2.1 _ 2 0).mpr ⟨rfl, by norm_num, by norm_num⟩,
   fun h => absurd ((c9_construction.1 _ 0 0).mp h).2.1 (by norm_num)⟩

end Batchio
